import Mathlib

/-!
Verification of the grepWin search engine (`src/SearchDlg.cpp`) against its
natural-language specification.  Strings are embedded as `List Char`; the
external boost regex engine, the C runtime `towlower` and the wildcard
matcher `wcswildcmp` (repository code outside the embedded file) are taken
as parameters of the definitions that call them.
-/

namespace GrepWin

/-- Characters of a path after its last backslash (`wcsrchr(pathBuf, '\\') + 1`
in `CSearchDlg::MatchPath`); the whole path when it has no backslash. -/
def afterLastSep (s : List Char) : List Char :=
  (s.reverse.takeWhile (fun c => c ≠ '\\')).reverse

/-- Glob branch of `CSearchDlg::MatchPath` (SearchDlg.cpp 4020-4035).  The
accumulator starts true when the first pattern begins with `-`; a `-`
pattern contributes an AND-NOT term over the pattern without its dash, any
other pattern an OR term.  `wild` stands for the external `wcswildcmp`. -/
def matchPathGlob (wild : List Char → List Char → Bool)
    (patterns : List (List Char)) (fName : List Char) : Bool :=
  let b0 : Bool :=
    match patterns with
    | [] => false
    | p :: _ => decide (p.head? = some '-')
  patterns.foldl
    (fun acc p =>
      if p.head? = some '-' then acc && !(wild (p.drop 1) fName)
      else acc || wild p fName)
    b0

/-- `CSearchDlg::MatchPath` (SearchDlg.cpp 4000-4037).  `regexMatch` stands
for the external `grepWinMatchI` applied to the compiled name regex; `low`
for the C runtime `towlower` used to lower-case the basename. -/
def matchPath (useRegexForPaths : Bool) (regexMatch : List Char → Bool)
    (wild : List Char → List Char → Bool) (low : Char → Char)
    (patterns : List (List Char)) (path : List Char) : Bool :=
  if patterns = [] then true
  else
    let pName := afterLastSep path
    if useRegexForPaths then
      regexMatch pName || regexMatch path
    else
      matchPathGlob wild patterns (pName.map low)

/-- The left-to-right fold described by the specification of the glob name
filter, stated from the spec's words: initial value true iff the first
pattern starts with `-`; `-` patterns contribute AND-NOT terms, others OR
terms, matched against the lower-cased basename. -/
def globFoldSpec (wild : List Char → List Char → Bool)
    (patterns : List (List Char)) (name : List Char) : Bool :=
  let init : Bool :=
    match patterns with
    | [] => false
    | p :: _ => decide (p.head? = some '-')
  patterns.foldl
    (fun acc p =>
      if p.head? = some '-' then acc && !(wild (p.drop 1) name)
      else acc || wild p name)
    init

/-- Per-item body of the name-pattern parse loop in
`CSearchDlg::SaveSettings` (SearchDlg.cpp 3401-3421): each nonempty
segment is lower-cased and pushed; when it has more than 2 characters and
ends in `.*`, the stem without the trailing `.*` is pushed as well. -/
def parsePatternItem (low : Char → Char) (s : List Char) : List (List Char) :=
  let t := s.map low
  if t.getLast? = some '*' && decide (t.length > 2) &&
      decide (t.dropLast.getLast? = some '.') then
    [t, t.take (t.length - 2)]
  else
    [t]

/-- The whole name-pattern parse of `CSearchDlg::SaveSettings`: split the
pattern text on `|`, skip empty segments, process each segment. -/
def parsePatterns (low : Char → Char) (buf : List Char) : List (List Char) :=
  ((buf.splitOn '|').filter (fun s => s ≠ [])).flatMap (parsePatternItem low)

/-- Modelled from the spec: `CPathUtils::GetParentDirectory` (repository
utility code outside the embedded file) — the path up to, and not
including, its last backslash. -/
def upToLastSep (s : List Char) : List Char :=
  (((s.reverse.dropWhile (fun c => c ≠ '\\')).drop 1)).reverse

/-- The name of the backup subfolder, from SearchDlg.cpp 4047. -/
def grepWinBackupDir : List Char :=
  ['g', 'r', 'e', 'p', 'W', 'i', 'n', '_', 'b', 'a', 'c', 'k', 'u', 'p']

/-- The path segment `\grepWin_backup\` inserted between the search root
and the relative path of the backed-up file. -/
def grepWinBackupSeg : List Char := '\\' :: grepWinBackupDir ++ ['\\']

/-- Backup destination computed by `CSearchDlg::BackupFile`
(SearchDlg.cpp 4039-4056).  With backup-in-subfolder enabled the file
`destParentDir\<relative>` is mapped to
`destParentDir\grepWin_backup\<relative>` (parent directory of the mapped
path, plus backslash, plus the original file name); otherwise the backup
is the original path with `.bak` appended.  `CPathUtils::GetFileName` is
modelled by `afterLastSep`. -/
def backupFilePath (backupInFolder : Bool) (destParentDir filePath : List Char) :
    List Char :=
  if backupInFolder then
    let folder0 := destParentDir ++ grepWinBackupSeg ++
      filePath.drop (destParentDir.length + 1)
    upToLastSep folder0 ++ '\\' :: afterLastSep filePath
  else
    filePath ++ ['.', 'b', 'a', 'k']

/-- Modelled from the spec: `SearchReplace` (repository string utility
outside the embedded file) — replace every occurrence of `pat` in the
subject, scanning left to right without rescanning replaced text. -/
def searchReplaceAll (pat repl : List Char) : List Char → List Char
  | [] => []
  | c :: rest =>
    if h : pat ≠ [] ∧ (c :: rest).take pat.length = pat then
      repl ++ searchReplaceAll pat repl ((c :: rest).drop pat.length)
    else
      c :: searchReplaceAll pat repl rest
termination_by s => s.length
decreasing_by
  · simp only [List.length_drop, List.length_cons]
    have hp : 0 < pat.length := List.length_pos.mpr h.1
    omega
  · simp only [List.length_cons]
    omega

/-- The 14 search/replacement pairs applied by `escapeForRegexEx` for
type 0 (SearchDlg.cpp 181-208): backslash becomes the hex escape `\x5c`,
and `^ $ . ? * + [ ] ( ) { } |` are backslash-escaped. -/
def escapePairs : List (List Char × List Char) :=
  [(['\\'], ['\\', 'x', '5', 'c']),
   (['^'], ['\\', '^']), (['$'], ['\\', '$']), (['.'], ['\\', '.']),
   (['?'], ['\\', '?']), (['*'], ['\\', '*']), (['+'], ['\\', '+']),
   (['['], ['\\', '[']), ([']'], ['\\', ']']), (['('], ['\\', '(']),
   ([')'], ['\\', ')']), (['\x7b'], ['\\', '\x7b']),
   (['\x7d'], ['\\', '\x7d']), (['|'], ['\\', '|'])]

/-- Sequential application of a list of search/replacement pairs, the
shape of the loop in `escapeForRegexEx`. -/
def applyPairs (ps : List (List Char × List Char)) (s : List Char) : List Char :=
  ps.foldl (fun str pr => searchReplaceAll pr.1 pr.2 str) s

/-- `escapeForRegexEx(str, 0)` (SearchDlg.cpp 181-208): the first 14
search/replacement pairs applied in order. -/
def escapeForRegexEx (s : List Char) : List Char :=
  applyPairs escapePairs s

/-- The regex alternation `(?:\n|\r|\r\n)` substituted for a literal CRLF
(SearchDlg.cpp 3628). -/
def crlfAlternation : List Char :=
  ['(', '?', ':', '\\', 'n', '|', '\\', 'r', '|', '\\', 'r', '\\', 'n', ')']

/-- The literal-mode pattern transformation of `CSearchDlg::SearchThread`
(SearchDlg.cpp 3623-3629): escape the search string for regex, then
replace every CRLF pair by the alternation. -/
def literalToRegex (s : List Char) : List Char :=
  searchReplaceAll ['\r', '\n'] crlfAlternation (escapeForRegexEx s)

/-- The escaped character set named by the specification: backslash and
`^ $ . ? * + [ ] ( ) { } |`. -/
def specialChars : List Char :=
  ['\\', '^', '$', '.', '?', '*', '+', '[', ']', '(', ')', '\x7b', '\x7d', '|']

/-- Character-wise escaping as described by the specification: backslash
becomes `\x5c`, the other special characters gain a backslash, everything
else is left alone. -/
def escCharSpec (c : Char) : List Char :=
  if c = '\\' then ['\\', 'x', '5', 'c']
  else if c ∈ specialChars then ['\\', c]
  else [c]

/-- The literal-mode transformation stated from the specification's
words: escape exactly the special characters, and replace every CRLF pair
of the literal by the alternation `(?:\n|\r|\r\n)`. -/
def specLiteralRegex : List Char → List Char
  | [] => []
  | c :: rest =>
    if c = '\r' ∧ rest.head? = some '\n' then
      crlfAlternation ++ specLiteralRegex rest.tail
    else
      escCharSpec c ++ specLiteralRegex rest
termination_by s => s.length
decreasing_by
  · simp only [List.length_cons]
    cases rest <;> simp <;> omega
  · simp only [List.length_cons]
    omega

/-- Character-wise replacement map: every occurrence of the single
character `c` becomes `r`. -/
def chMap (c : Char) (r : List Char) (s : List Char) : List Char :=
  s.flatMap (fun x => if x = c then r else [x])

/-- Events sent to the host window for one processed file. -/
inductive SearchEvent where
  | progress (matched : Bool)
  | found
  deriving DecidableEq, Repr

/-- `CSearchDlg::SendResult` (SearchDlg.cpp 4627-4633) as the ordered list
of window messages it sends for one file: first `SEARCH_PROGRESS` carrying
`nCount >= 0`, then `SEARCH_FOUND` when the file qualifies
(`notSearch ? nCount <= 0 : nCount > 0`).  `nCount = -1` is the
"skipped" result code of `CSearchDlg::SearchFile`. -/
def sendResult (notSearch : Bool) (nCount : Int) : List SearchEvent :=
  [SearchEvent.progress (decide (0 ≤ nCount))] ++
    (if (if notSearch then nCount ≤ 0 else 0 < nCount) then
      [SearchEvent.found]
    else [])

/-- The block size of the per-file matchers: `#define SEARCHBLOCKSIZE
(1 << 26)` (SearchDlg.cpp 73).  The text matcher scans windows of
`SEARCHBLOCKSIZE / 2` wide characters. -/
def SEARCHBLOCKSIZE : Nat := 2 ^ 26

/-- Inner match loop shared by `SearchOnTextFile` (4197-4265) and
`SearchByFilePath` (4483-4527), over iterator offsets into the buffer.
`search lo hi` abstracts the external boost `regex_search` on the window
`[lo, hi)` (match flags and the anchoring base pointer included): it
returns the offsets `(whatC[0].first, whatC[0].second)` of the leftmost
match, or none.  Each found hit bumps `nFound`; in not-search mode the
loop breaks at once; a zero-width hit at the window end breaks, any other
zero-width hit advances the scan position by exactly one unit.  The
result is `(startIter, nFound)` on loop exit, or none when the fuel is
exhausted.  The cancel flag is modelled as never set. -/
def innerScan (search : Nat → Nat → Option (Nat × Nat)) (notSearch : Bool)
    (blockEnd : Nat) : Nat → Nat → Nat → Option (Nat × Nat)
  | 0, _, _ => none
  | fuel + 1, startIter, nFound =>
    if startIter < blockEnd then
      match search startIter blockEnd with
      | some (f, sec) =>
        if notSearch then some (startIter, nFound + 1)
        else if sec = f then
          if sec = blockEnd then some (sec, nFound + 1)
          else innerScan search notSearch blockEnd fuel (sec + 1) (nFound + 1)
        else innerScan search notSearch blockEnd fuel sec (nFound + 1)
      | none => some (startIter, nFound)
    else some (startIter, nFound)

/-- Outer block loop of the per-file matchers (4195-4276, 4481-4543):
after the inner loop exits, the scan position jumps to the block end, the
window grows by one block size, and the loop stops once the window end
reached `count`. -/
def blockScanAux (search : Nat → Nat → Option (Nat × Nat)) (notSearch : Bool)
    (bs count : Nat) : Nat → Nat → Nat → Nat → Option Nat
  | 0, _, _, _ => none
  | fuel + 1, startIter, blockEnd, nFound =>
    match innerScan search notSearch blockEnd (blockEnd - startIter + 1)
        startIter nFound with
    | none => none
    | some (si, n) =>
      if blockEnd < count then
        blockScanAux search notSearch bs count fuel
          (if si < blockEnd then blockEnd else si) (blockEnd + bs) n
      else some n

/-- The whole block scan: the first window is the remainder
`count % blockSize` so later window boundaries are block-aligned, and the
loop returns the found count. -/
def blockScan (search : Nat → Nat → Option (Nat × Nat)) (notSearch : Bool)
    (bs count : Nat) : Option Nat :=
  blockScanAux search notSearch bs count (count / bs + 2) 0 (count % bs) 0

/-- The block loop of `SearchOnTextFile` instantiated at its real window
size of `SEARCHBLOCKSIZE / 2` characters over a decoded text buffer. -/
def searchOnTextFileLoop (search : Nat → Nat → Option (Nat × Nat))
    (notSearch : Bool) (text : List Char) : Option Nat :=
  blockScan search notSearch (SEARCHBLOCKSIZE / 2) text.length

/-- Leftmost occurrence of the single character `ch` inside the window
`[lo, hi)` of `text`: the behaviour of the compiled regex of the escaped
one-character literal `ch`. -/
def charSearch (ch : Char) (text : List Char) (lo hi : Nat) :
    Option (Nat × Nat) :=
  match ((text.drop lo).take (hi - lo)).findIdx? (fun c => c = ch) with
  | some i => some (lo + i, lo + i + 1)
  | none => none

/-- A block-sized text whose only match for the literal `a` sits at its
first character. -/
def mkBlock (b : Nat) : List Char := 'a' :: List.replicate (b - 1) 'b'

/-- A search function producing a zero-width match at every window start:
the behaviour of patterns such as `^` or a lookahead that holds
everywhere. -/
def zwSearchProbe (lo hi : Nat) : Option (Nat × Nat) :=
  if lo < hi then some (lo, lo) else none

/-- The per-match arrays of `CSearchInfo` (the emitted FileResult). -/
structure CSearchInfo where
  matchLinesNumbers : List Nat
  matchColumnsNumbers : List Nat
  matchLengths : List Nat
  matchCount : Nat
  deriving DecidableEq, Repr

/-- The per-hit recording of the `SearchByFilePath` scan loop
(4492-4494): for each accepted hit the absolute offset is pushed onto
`matchLinesNumbers` and the hit length onto `matchColumnsNumbers`
(line/column resolution is deferred).  A pass's hits are abstracted as
the list of (offset, length) pairs the regex engine reports. -/
def recordHits (hits : List (Nat × Nat)) (s : CSearchInfo) : CSearchInfo :=
  hits.foldl
    (fun acc h =>
      { acc with
        matchLinesNumbers := acc.matchLinesNumbers ++ [h.1],
        matchColumnsNumbers := acc.matchColumnsNumbers ++ [h.2],
        matchCount := acc.matchCount + 1 })
    s

/-- The post-scan resolution of `SearchByFilePath` (4563-4616): when the
pass found hits, the assumed encoding is not Binary and the mode is not
not-search, the loop runs over every index of the whole accumulated
`matchLinesNumbers` vector — also entries recorded by an earlier pass —
rewriting lines and columns in place and appending one entry to
`matchLengths` per index.  `lineOf`, `colOf` and `lenOf` abstract the
`TextOffset` line index (repository code outside the embedded file) and
the line-cache length clamping. -/
def resolveLines (lineOf : Nat → Nat) (colOf : Nat → Nat → Nat)
    (lenOf : Nat → Nat → Nat) (encodingIsBinary notSearch : Bool)
    (nFound : Nat) (s : CSearchInfo) : CSearchInfo :=
  if 0 < nFound ∧ ¬encodingIsBinary ∧ ¬notSearch then
    (List.range s.matchLinesNumbers.length).foldl
      (fun acc mp =>
        let pos := acc.matchLinesNumbers.getD mp 0
        let lenStored := acc.matchColumnsNumbers.getD mp 0
        let line := lineOf pos
        { acc with
          matchLinesNumbers := acc.matchLinesNumbers.set mp line,
          matchColumnsNumbers := acc.matchColumnsNumbers.set mp (colOf pos line),
          matchLengths := acc.matchLengths ++ [lenOf pos lenStored] })
      s
  else s

/-- One completed `SearchByFilePath` pass in normal (not not-search)
mode: record the pass's hits, then resolve lines over the whole
accumulated state; the returned count is the pass's own hit count. -/
def searchByFilePathPass (lineOf : Nat → Nat) (colOf : Nat → Nat → Nat)
    (lenOf : Nat → Nat → Nat) (encodingIsBinary : Bool)
    (hits : List (Nat × Nat)) (s : CSearchInfo) : CSearchInfo × Nat :=
  let s1 := recordHits hits s
  (resolveLines lineOf colOf lenOf encodingIsBinary false hits.length s1,
    hits.length)

/-- The UTF-16 double pass of `SearchFile` for a Binary-typed file in
regex mode (4762-4779): the aligned pass and then the misaligned pass run
on the same `CSearchInfo`, with the assumed encoding Unicode_Le or
Unicode_Be — never Binary — so both passes run the resolution loop. -/
def utf16BinaryPasses (lineOf : Nat → Nat) (colOf : Nat → Nat → Nat)
    (lenOf : Nat → Nat → Nat) (alignedHits misalignedHits : List (Nat × Nat))
    (s : CSearchInfo) : CSearchInfo × Nat :=
  let r1 := searchByFilePathPass lineOf colOf lenOf false alignedHits s
  let r2 := searchByFilePathPass lineOf colOf lenOf false misalignedHits r1.1
  (r2.1, r1.2 + r2.2)

end GrepWin

namespace GrepWin

/-- C10: when the name-pattern list is empty, `MatchPath` accepts every
path: for every path (and every regex/wildcard/lower-casing helper and
either name-matching mode) `matchPath` returns true. -/
theorem matchPath_nil_accepts (useRegexForPaths : Bool)
    (regexMatch : List Char → Bool) (wild : List Char → List Char → Bool)
    (low : Char → Char) (path : List Char) :
    matchPath useRegexForPaths regexMatch wild low [] path = true := by
  simp [matchPath]

/-- C7: in glob name-filter mode with a nonempty pattern list, the filter
result equals the spec's left-to-right fold over the pattern list — the
accumulator starts true iff the first pattern starts with `-`, a `-`
pattern adds an AND-NOT term and any other pattern an OR term — evaluated
against the lower-cased basename of the path. -/
theorem matchPath_glob_eq_fold (regexMatch : List Char → Bool)
    (wild : List Char → List Char → Bool) (low : Char → Char)
    (patterns : List (List Char)) (path : List Char)
    (h : patterns ≠ []) :
    matchPath false regexMatch wild low patterns path =
      globFoldSpec wild patterns ((afterLastSep path).map low) := by
  simp [matchPath, h, matchPathGlob, globFoldSpec]

/-- Closed witness for C7: the fold equality evaluated on a concrete
pattern list and path. -/
theorem matchPath_glob_eq_fold_witness :
    (['a'] :: [['-'], ['b']] : List (List Char)) ≠ [] ∧
      matchPath false (fun _ => false) (fun p n => p = n) id
          (['a'] :: [['-'], ['b']]) ['x', '\\', 'a'] =
        globFoldSpec (fun p n => p = n) (['a'] :: [['-'], ['b']])
          ((afterLastSep ['x', '\\', 'a']).map id) :=
  ⟨by decide,
    matchPath_glob_eq_fold (fun _ => false) (fun p n => p = n) id
      (['a'] :: [['-'], ['b']]) ['x', '\\', 'a'] (by decide)⟩

/-- C9: every nonempty segment of the name-pattern text whose lower-cased
form has more than 2 characters and ends in `.*` contributes, right after
itself, the bare stem (the pattern without its trailing `.*`) as an extra
pattern in the parsed list. -/
theorem parsePatterns_dotStar_adds_stem (low : Char → Char)
    (buf s : List Char)
    (hs : s ∈ (buf.splitOn '|').filter (fun x => x ≠ []))
    (h1 : (s.map low).getLast? = some '*')
    (h2 : (s.map low).length > 2)
    (h3 : (s.map low).dropLast.getLast? = some '.') :
    ∃ l₁ l₂, parsePatterns low buf =
      l₁ ++ [s.map low, (s.map low).take ((s.map low).length - 2)] ++ l₂ := by
  obtain ⟨u, v, huv⟩ := List.append_of_mem hs
  refine ⟨u.flatMap (parsePatternItem low), v.flatMap (parsePatternItem low), ?_⟩
  have h2' : 2 < s.length := by simpa using h2
  have hitem : parsePatternItem low s =
      [s.map low, (s.map low).take ((s.map low).length - 2)] := by
    simp [parsePatternItem, h1, h2', h3]
  simp only [parsePatterns]
  rw [huv]
  simp [hitem]

/-- Closed witness for C9 at the concrete pattern text `ab.*`. -/
theorem parsePatterns_dotStar_adds_stem_witness :
    (['a', 'b', '.', '*'] ∈
        ((['a', 'b', '.', '*'] : List Char).splitOn '|').filter
          (fun x => x ≠ [])) ∧
      ∃ l₁ l₂, parsePatterns id ['a', 'b', '.', '*'] =
        l₁ ++ [(['a', 'b', '.', '*'] : List Char).map id,
          ((['a', 'b', '.', '*'] : List Char).map id).take
            (((['a', 'b', '.', '*'] : List Char).map id).length - 2)] ++ l₂ :=
  ⟨by decide,
    parsePatterns_dotStar_adds_stem id ['a', 'b', '.', '*'] ['a', 'b', '.', '*']
      (by decide) (by decide) (by decide) (by decide)⟩

/-- C2 counterexample: a file whose scan was skipped (`nCount = -1`, for
example a read error or a cancelled load) IS emitted as Found in
not-search mode, although its match count is not 0 — the emission
predicate of the code is `nCount <= 0`, not `nCount == 0`. -/
theorem sendResult_notSearch_emits_skipped :
    SearchEvent.found ∈ sendResult true (-1) ∧ (-1 : Int) ≠ 0 := by decide

/-- C2 amended: in not-search mode, for a file that passed the filters, a
Found event is emitted iff the scan result code is at most 0 — that is,
iff the scan completed with match count 0 OR the scan was skipped or
failed (result code -1). -/
theorem sendResult_notSearch_found_iff (n : Int) :
    SearchEvent.found ∈ sendResult true n ↔ n ≤ 0 := by
  by_cases h : n ≤ 0 <;> simp [sendResult, h]

/-- C3 counterexample: for a qualifying file (normal mode, one match) the
events are emitted in the order Progress then Found, not Found then
Progress as the claim states. -/
theorem sendResult_progress_before_found_cx :
    sendResult false 1 = [SearchEvent.progress true, SearchEvent.found] ∧
      sendResult false 1 ≠ [SearchEvent.found, SearchEvent.progress true] := by
  decide

/-- C3 amended: for every processed file, the events for that file are
emitted from the single per-file call in the order: first the Progress
event, then the optional Found event (when the file qualifies). -/
theorem sendResult_progress_then_found (notSearch : Bool) (n : Int) :
    ∃ rest, sendResult notSearch n =
        SearchEvent.progress (decide (0 ≤ n)) :: rest ∧
      (rest = [] ∨ rest = [SearchEvent.found]) := by
  by_cases h : (if notSearch then n ≤ 0 else 0 < n) <;> simp [sendResult, h]

/-- A takeWhile over an append stops at a failing separator. -/
theorem takeWhile_append_stop (p : Char → Bool) (a b : List Char) (x : Char)
    (hx : p x = false) : ((a ++ x :: b).takeWhile p) = a.takeWhile p := by
  induction a with
  | nil => simp [List.takeWhile_cons, hx]
  | cons c a ih => by_cases h : p c <;> simp [List.takeWhile_cons, h, ih]

/-- A dropWhile over an append keeps everything from a failing separator on. -/
theorem dropWhile_append_stop (p : Char → Bool) (a b : List Char) (x : Char)
    (hx : p x = false) : ((a ++ x :: b).dropWhile p) = a.dropWhile p ++ x :: b := by
  induction a with
  | nil => simp [List.dropWhile_cons, hx]
  | cons c a ih => by_cases h : p c <;> simp [List.dropWhile_cons, h, ih]

/-- takeWhile keeps a list all of whose elements satisfy the predicate. -/
theorem takeWhile_all (p : Char → Bool) (m : List Char)
    (hm : ∀ c ∈ m, p c = true) : m.takeWhile p = m := by
  induction m with
  | nil => rfl
  | cons c m ih =>
    have hc := hm c (by simp)
    simp [List.takeWhile_cons, hc, ih fun d hd => hm d (by simp [hd])]

/-- dropWhile drops a list all of whose elements satisfy the predicate. -/
theorem dropWhile_all (p : Char → Bool) (m : List Char)
    (hm : ∀ c ∈ m, p c = true) : m.dropWhile p = [] := by
  induction m with
  | nil => rfl
  | cons c m ih =>
    have hc := hm c (by simp)
    simp [List.dropWhile_cons, hc, ih fun d hd => hm d (by simp [hd])]

/-- The part after the last backslash of `A ++ '\' :: B` is `B` when `B`
holds no backslash. -/
theorem afterLastSep_eq (A B : List Char) (hB : '\\' ∉ B) :
    afterLastSep (A ++ '\\' :: B) = B := by
  unfold afterLastSep
  have h1 : (A ++ '\\' :: B).reverse = B.reverse ++ '\\' :: A.reverse := by
    simp
  rw [h1, takeWhile_append_stop _ _ _ _ (by simp),
    takeWhile_all _ _ (fun c hc => by
      simp only [List.mem_reverse] at hc
      exact decide_eq_true (fun h => hB (h ▸ hc))),
    List.reverse_reverse]

/-- The part before the last backslash of `A ++ '\' :: B` is `A` when `B`
holds no backslash. -/
theorem upToLastSep_eq (A B : List Char) (hB : '\\' ∉ B) :
    upToLastSep (A ++ '\\' :: B) = A := by
  unfold upToLastSep
  have h1 : (A ++ '\\' :: B).reverse = B.reverse ++ '\\' :: A.reverse := by
    simp
  rw [h1, dropWhile_append_stop _ _ _ _ (by simp),
    dropWhile_all _ _ (fun c hc => by
      simp only [List.mem_reverse] at hc
      exact decide_eq_true (fun h => hB (h ▸ hc)))]
  simp

/-- Every list containing a backslash splits around its last backslash. -/
theorem sep_split (l : List Char) (h : '\\' ∈ l) :
    ∃ A B, l = A ++ '\\' :: B ∧ '\\' ∉ B := by
  induction l with
  | nil => cases h
  | cons c l ih =>
    by_cases hl : '\\' ∈ l
    · obtain ⟨A, B, hAB, hB⟩ := ih hl
      exact ⟨c :: A, B, by simp [hAB], hB⟩
    · have hc : c = '\\' := by
        rcases List.mem_cons.mp h with h' | h'
        · exact h'.symm
        · exact absurd h' hl
      exact ⟨[], l, by simp [hc], hl⟩

/-- Dropping the root and its separator from `root ++ '\' :: rel` leaves
the relative path. -/
theorem drop_root (root rel : List Char) :
    (root ++ '\\' :: rel).drop (root.length + 1) = rel := by
  have h1 : root ++ '\\' :: rel = (root ++ ['\\']) ++ rel := by simp
  have h2 : (root ++ ['\\']).length = root.length + 1 := by simp
  rw [h1, ← h2, List.drop_left]

/-- Replacing a single character is the character-wise map. -/
theorem searchReplaceAll_single (c : Char) (r : List Char) :
    ∀ s, searchReplaceAll [c] r s = chMap c r s := by
  intro s
  induction s with
  | nil => simp [searchReplaceAll, chMap]
  | cons x rest ih =>
    by_cases hx : x = c
    · subst hx
      rw [searchReplaceAll]
      simp [chMap, ih]
    · rw [searchReplaceAll]
      simp [chMap, hx, ih]

/-- A pipeline of single-character replacements acts character by
character: it equals the flat map of its own action on one-character
strings. -/
theorem applyPairs_singles (ps : List (List Char × List Char))
    (hs : ∀ pr ∈ ps, ∃ c, pr.1 = [c]) :
    ∀ s, applyPairs ps s = s.flatMap (fun c => applyPairs ps [c]) := by
  induction ps with
  | nil => intro s; simp [applyPairs]
  | cons pr rest ih =>
    intro s
    obtain ⟨c, hc⟩ := hs pr (by simp)
    have ihr := ih (fun q hq => hs q (by simp [hq]))
    have hstep : ∀ t, applyPairs (pr :: rest) t =
        applyPairs rest (searchReplaceAll pr.1 pr.2 t) := by
      intro t; simp [applyPairs]
    rw [hstep, hc, searchReplaceAll_single, chMap, ihr, List.flatMap_assoc]
    refine List.flatMap_congr ?_
    intro x _
    rw [hstep, hc, searchReplaceAll_single]
    have : chMap c pr.2 [x] = if x = c then pr.2 else [x] := by
      simp [chMap]
    rw [this]
    by_cases hx : x = c
    · rw [if_pos hx]
      exact (ihr pr.2).symm
    · rw [if_neg hx]
      exact (ihr [x]).symm

set_option maxRecDepth 8192 in
/-- The composed action of the 14 escape pairs on one character is
exactly the specification's character-wise escape. -/
theorem applyPairs_escapePairs_char (c : Char) :
    applyPairs escapePairs [c] = escCharSpec c := by
  by_cases h1 : c = '\\'
  · subst h1; simp [applyPairs, escapePairs, searchReplaceAll_single, chMap,
      escCharSpec, specialChars]
  by_cases h2 : c = '^'
  · subst h2; simp [applyPairs, escapePairs, searchReplaceAll_single, chMap,
      escCharSpec, specialChars]
  by_cases h3 : c = '$'
  · subst h3; simp [applyPairs, escapePairs, searchReplaceAll_single, chMap,
      escCharSpec, specialChars]
  by_cases h4 : c = '.'
  · subst h4; simp [applyPairs, escapePairs, searchReplaceAll_single, chMap,
      escCharSpec, specialChars]
  by_cases h5 : c = '?'
  · subst h5; simp [applyPairs, escapePairs, searchReplaceAll_single, chMap,
      escCharSpec, specialChars]
  by_cases h6 : c = '*'
  · subst h6; simp [applyPairs, escapePairs, searchReplaceAll_single, chMap,
      escCharSpec, specialChars]
  by_cases h7 : c = '+'
  · subst h7; simp [applyPairs, escapePairs, searchReplaceAll_single, chMap,
      escCharSpec, specialChars]
  by_cases h8 : c = '['
  · subst h8; simp [applyPairs, escapePairs, searchReplaceAll_single, chMap,
      escCharSpec, specialChars]
  by_cases h9 : c = ']'
  · subst h9; simp [applyPairs, escapePairs, searchReplaceAll_single, chMap,
      escCharSpec, specialChars]
  by_cases h10 : c = '('
  · subst h10; simp [applyPairs, escapePairs, searchReplaceAll_single, chMap,
      escCharSpec, specialChars]
  by_cases h11 : c = ')'
  · subst h11; simp [applyPairs, escapePairs, searchReplaceAll_single, chMap,
      escCharSpec, specialChars]
  by_cases h12 : c = '\x7b'
  · subst h12; simp [applyPairs, escapePairs, searchReplaceAll_single, chMap,
      escCharSpec, specialChars]
  by_cases h13 : c = '\x7d'
  · subst h13; simp [applyPairs, escapePairs, searchReplaceAll_single, chMap,
      escCharSpec, specialChars]
  by_cases h14 : c = '|'
  · subst h14; simp [applyPairs, escapePairs, searchReplaceAll_single, chMap,
      escCharSpec, specialChars]
  simp [applyPairs, escapePairs, searchReplaceAll_single, chMap, escCharSpec,
    specialChars, h1, h2, h3, h4, h5, h6, h7, h8, h9, h10, h11, h12, h13, h14]

/-- The 14-pair escape loop equals the character-wise escape map. -/
theorem escapeForRegexEx_eq_flatMap (s : List Char) :
    escapeForRegexEx s = s.flatMap escCharSpec := by
  rw [escapeForRegexEx, applyPairs_singles escapePairs (by
    intro pr hpr
    fin_cases hpr <;> exact ⟨_, rfl⟩)]
  exact List.flatMap_congr fun c _ => applyPairs_escapePairs_char c

/-- The CRLF pass steps over any block of characters that contains no
carriage return. -/
theorem searchReplaceAll_crlf_skip (u t : List Char) (hu : '\r' ∉ u) :
    searchReplaceAll ['\r', '\n'] crlfAlternation (u ++ t) =
      u ++ searchReplaceAll ['\r', '\n'] crlfAlternation t := by
  induction u with
  | nil => simp
  | cons d u ih =>
    have hd : d ≠ '\r' := fun h => hu (by simp [h])
    rw [List.cons_append, searchReplaceAll]
    have hcond : ¬((['\r', '\n'] : List Char) ≠ [] ∧
        (d :: (u ++ t)).take (['\r', '\n'] : List Char).length = ['\r', '\n']) := by
      intro h
      have := h.2
      simp [List.take_succ_cons] at this
      exact hd this.1
    rw [dif_neg hcond, ih fun h => hu (by simp [h]), List.cons_append]

/-- The escape of a character never contains a carriage return. -/
theorem escCharSpec_no_cr (c : Char) (hc : c ≠ '\r') : '\r' ∉ escCharSpec c := by
  unfold escCharSpec
  by_cases h : c = '\\'
  · rw [if_pos h]; decide
  by_cases h' : c ∈ specialChars
  · rw [if_neg h, if_pos h']
    intro hm
    rcases List.mem_cons.mp hm with h1 | h1
    · exact absurd h1 (by decide)
    · exact hc (List.mem_singleton.mp h1).symm
  · rw [if_neg h, if_neg h']
    intro hm
    exact hc (List.mem_singleton.mp hm).symm

/-- The head of the character-wise escape of a string is a line feed only
when the string itself starts with a line feed. -/
theorem flatMap_esc_head_lf (rest : List Char) (h : rest.head? ≠ some '\n') :
    (rest.flatMap escCharSpec).head? ≠ some '\n' := by
  cases rest with
  | nil => simp
  | cons d rest2 =>
    have hd : d ≠ '\n' := by simpa using h
    rw [List.flatMap_cons]
    by_cases h1 : d = '\\'
    · simp [escCharSpec, h1]
    by_cases h2 : d ∈ specialChars
    · simp [escCharSpec, h1, h2]
    · simp [escCharSpec, h1, h2, hd]

/-- A list's first element, through take 1. -/
theorem take_one_lf (t : List Char) : t.take 1 = ['\n'] ↔ t.head? = some '\n' := by
  cases t <;> simp

/-- The CRLF pass on the character-wise escaped string implements the
specification's CRLF-aware recursion. -/
theorem crlf_pass_spec : ∀ n (s : List Char), s.length ≤ n →
    searchReplaceAll ['\r', '\n'] crlfAlternation (s.flatMap escCharSpec) =
      specLiteralRegex s := by
  intro n
  induction n with
  | zero =>
    intro s hs
    have : s = [] := List.length_eq_zero.mp (Nat.le_zero.mp hs)
    subst this
    simp [searchReplaceAll, specLiteralRegex]
  | succ n ih =>
    intro s hs
    cases s with
    | nil => simp [searchReplaceAll, specLiteralRegex]
    | cons c rest =>
      by_cases hpair : c = '\r' ∧ rest.head? = some '\n'
      · obtain ⟨hc, hd⟩ := hpair
        subst hc
        cases rest with
        | nil => simp at hd
        | cons d rest2 =>
          have hdlf : d = '\n' := by simpa using hd
          subst hdlf
          have hflat : ('\r' :: '\n' :: rest2).flatMap escCharSpec =
              '\r' :: '\n' :: rest2.flatMap escCharSpec := by
            have e1 : escCharSpec '\r' = ['\r'] := by decide
            have e2 : escCharSpec '\n' = ['\n'] := by decide
            simp [e1, e2]
          rw [hflat, searchReplaceAll]
          rw [dif_pos (by refine ⟨by simp, ?_⟩; simp)]
          have hrec : (('\r' :: '\n' :: rest2.flatMap escCharSpec).drop
              (['\r', '\n'] : List Char).length) = rest2.flatMap escCharSpec := by
            simp
          rw [hrec, ih rest2 (by simp at hs; omega)]
          rw [specLiteralRegex]
          simp
      · rw [specLiteralRegex, if_neg hpair]
        by_cases hc : c = '\r'
        · subst hc
          have hrest : rest.head? ≠ some '\n' := fun h => hpair ⟨rfl, h⟩
          have hflat : ('\r' :: rest).flatMap escCharSpec =
              '\r' :: rest.flatMap escCharSpec := by
            have e1 : escCharSpec '\r' = ['\r'] := by decide
            simp [e1]
          rw [hflat, searchReplaceAll]
          rw [dif_neg (by
            intro h
            have h2 := h.2
            simp only [List.length_cons, List.length_nil, List.take_succ_cons,
              List.take_zero] at h2
            have : (rest.flatMap escCharSpec).take 1 = ['\n'] := by
              have := congrArg List.tail h2
              simpa using this
            exact flatMap_esc_head_lf rest hrest ((take_one_lf _).mp this))]
          rw [ih rest (by simp at hs; omega)]
          have e1 : escCharSpec '\r' = ['\r'] := by decide
          simp [e1]
        · rw [List.flatMap_cons,
            searchReplaceAll_crlf_skip _ _ (escCharSpec_no_cr c hc),
            ih rest (by simp at hs; omega)]

/-- C6: the literal-mode pattern transformation performed by
`SearchThread` — `escapeForRegexEx` followed by the CRLF substitution —
equals the specification's description: escape exactly backslash and
`^ $ . ? * + [ ] ( ) { } |` character-wise, and replace every CRLF pair
of the literal by the alternation `(?:\n|\r|\r\n)`. -/
theorem literalToRegex_eq_spec (s : List Char) :
    literalToRegex s = specLiteralRegex s := by
  rw [literalToRegex, escapeForRegexEx_eq_flatMap]
  exact crlf_pass_spec s.length s le_rfl

/-- One unfolding of the inner match loop. -/
theorem innerScan_step (search : Nat → Nat → Option (Nat × Nat))
    (ns : Bool) (blockEnd fuel startIter nFound : Nat) :
    innerScan search ns blockEnd (fuel + 1) startIter nFound =
      if startIter < blockEnd then
        match search startIter blockEnd with
        | some (f, sec) =>
          if ns then some (startIter, nFound + 1)
          else if sec = f then
            if sec = blockEnd then some (sec, nFound + 1)
            else innerScan search ns blockEnd fuel (sec + 1) (nFound + 1)
          else innerScan search ns blockEnd fuel sec (nFound + 1)
        | none => some (startIter, nFound)
      else some (startIter, nFound) := rfl

/-- One unfolding of the outer block loop. -/
theorem blockScanAux_step (search : Nat → Nat → Option (Nat × Nat))
    (ns : Bool) (bs count fuel startIter blockEnd nFound : Nat) :
    blockScanAux search ns bs count (fuel + 1) startIter blockEnd nFound =
      match innerScan search ns blockEnd (blockEnd - startIter + 1)
          startIter nFound with
      | none => none
      | some (si, n) =>
        if blockEnd < count then
          blockScanAux search ns bs count fuel
            (if si < blockEnd then blockEnd else si) (blockEnd + bs) n
        else some n := rfl

/-- C1: a Binary-typed file scanned in regex mode through the UTF-16
aligned and misaligned passes, with one hit in each pass, ends with
three entries in `matchLengths` but only two in `matchLinesNumbers` and
`matchColumnsNumbers` — the second pass's resolution loop walks the whole
accumulated vector again — so the three arrays are not parallel,
contradicting the invariant stated by the specification. -/
theorem doublePass_breaks_parallel_arrays :
    ((utf16BinaryPasses (fun p => p + 1) (fun _ _ => 1) (fun _ l => l)
          [(0, 2)] [(2, 2)] ⟨[], [], [], 0⟩).1.matchLengths.length ≠
        (utf16BinaryPasses (fun p => p + 1) (fun _ _ => 1) (fun _ l => l)
          [(0, 2)] [(2, 2)] ⟨[], [], [], 0⟩).1.matchLinesNumbers.length) ∧
      (utf16BinaryPasses (fun p => p + 1) (fun _ _ => 1) (fun _ l => l)
          [(0, 2)] [(2, 2)] ⟨[], [], [], 0⟩).1.matchLinesNumbers.length = 2 ∧
      (utf16BinaryPasses (fun p => p + 1) (fun _ _ => 1) (fun _ l => l)
          [(0, 2)] [(2, 2)] ⟨[], [], [], 0⟩).1.matchColumnsNumbers.length = 2 ∧
      (utf16BinaryPasses (fun p => p + 1) (fun _ _ => 1) (fun _ l => l)
          [(0, 2)] [(2, 2)] ⟨[], [], [], 0⟩).1.matchLengths.length = 3 := by
  decide

/-- The block text has the stated length. -/
theorem mkBlock_length (b : Nat) (hb : 1 ≤ b) : (mkBlock b).length = b := by
  simp [mkBlock]
  omega

/-- The literal search finds the hit at the head of the first window. -/
theorem charSearch_first_block (b : Nat) (hb : 1 ≤ b) :
    charSearch 'a' (mkBlock b ++ mkBlock b) 0 b = some (0, 1) := by
  unfold charSearch
  rw [List.drop_zero, Nat.sub_zero]
  have htake : (mkBlock b ++ mkBlock b).take b = mkBlock b :=
    List.take_left' (mkBlock_length b hb)
  rw [htake, mkBlock]
  simp [List.findIdx?_cons]

/-- The literal search finds the hit at the head of the second window. -/
theorem charSearch_second_block (b : Nat) (hb : 1 ≤ b) :
    charSearch 'a' (mkBlock b ++ mkBlock b) b (2 * b) = some (b, b + 1) := by
  unfold charSearch
  have hdrop : (mkBlock b ++ mkBlock b).drop b = mkBlock b :=
    List.drop_left' (mkBlock_length b hb)
  have htake : (mkBlock b).take b = mkBlock b :=
    List.take_of_length_le (le_of_eq (mkBlock_length b hb))
  rw [hdrop, show 2 * b - b = b from by omega, htake, mkBlock]
  simp [List.findIdx?_cons]

/-- The literal search finds a hit somewhere in the whole buffer. -/
theorem charSearch_whole (b : Nat) (hb : 1 ≤ b) :
    charSearch 'a' (mkBlock b ++ mkBlock b) 0 (2 * b) = some (0, 1) := by
  unfold charSearch
  rw [List.drop_zero, Nat.sub_zero]
  have htake : (mkBlock b ++ mkBlock b).take (2 * b) = mkBlock b ++ mkBlock b :=
    List.take_of_length_le (by
      rw [List.length_append, mkBlock_length b hb]
      omega)
  rw [htake, mkBlock]
  simp [List.findIdx?_cons]

/-- In not-search mode a block whose window holds a hit bumps the count
once and the loop jumps to the next block. -/
theorem blockScanAux_notSearch_hit (search : Nat → Nat → Option (Nat × Nat))
    (bs count fuel startIter blockEnd nFound f sec : Nat)
    (hlt : startIter < blockEnd)
    (hs : search startIter blockEnd = some (f, sec))
    (hcont : blockEnd < count) :
    blockScanAux search true bs count (fuel + 1) startIter blockEnd nFound =
      blockScanAux search true bs count fuel blockEnd (blockEnd + bs)
        (nFound + 1) := by
  have e : innerScan search true blockEnd (blockEnd - startIter + 1)
      startIter nFound = some (startIter, nFound + 1) := by
    rw [innerScan_step, if_pos hlt, hs]
    rfl
  rw [blockScanAux_step, e]
  show (if blockEnd < count then
      blockScanAux search true bs count fuel
        (if startIter < blockEnd then blockEnd else startIter) (blockEnd + bs)
        (nFound + 1)
    else some (nFound + 1)) = _
  rw [if_pos hcont, if_pos hlt]

/-- In not-search mode the final block with a hit returns the bumped
count. -/
theorem blockScanAux_notSearch_hit_last (search : Nat → Nat → Option (Nat × Nat))
    (bs count fuel startIter blockEnd nFound f sec : Nat)
    (hlt : startIter < blockEnd)
    (hs : search startIter blockEnd = some (f, sec))
    (hstop : ¬blockEnd < count) :
    blockScanAux search true bs count (fuel + 1) startIter blockEnd nFound =
      some (nFound + 1) := by
  have e : innerScan search true blockEnd (blockEnd - startIter + 1)
      startIter nFound = some (startIter, nFound + 1) := by
    rw [innerScan_step, if_pos hlt, hs]
    rfl
  rw [blockScanAux_step, e]
  show (if blockEnd < count then
      blockScanAux search true bs count fuel
        (if startIter < blockEnd then blockEnd else startIter) (blockEnd + bs)
        (nFound + 1)
    else some (nFound + 1)) = _
  rw [if_neg hstop]

/-- A block whose window is empty changes nothing but the window. -/
theorem blockScanAux_empty_window (search : Nat → Nat → Option (Nat × Nat))
    (ns : Bool) (bs count fuel startIter blockEnd nFound : Nat)
    (hge : ¬startIter < blockEnd) (hcont : blockEnd < count) :
    blockScanAux search ns bs count (fuel + 1) startIter blockEnd nFound =
      blockScanAux search ns bs count fuel startIter (blockEnd + bs)
        nFound := by
  have e : innerScan search ns blockEnd (blockEnd - startIter + 1)
      startIter nFound = some (startIter, nFound) := by
    rw [innerScan_step, if_neg hge]
  rw [blockScanAux_step, e]
  show (if blockEnd < count then
      blockScanAux search ns bs count fuel
        (if startIter < blockEnd then blockEnd else startIter) (blockEnd + bs)
        nFound
    else some nFound) = _
  rw [if_pos hcont, if_neg hge]

/-- A not-search scan of the two-block text counts one hit per block. -/
theorem blockScan_two_blocks (b : Nat) (hb : 1 ≤ b) :
    blockScan (charSearch 'a' (mkBlock b ++ mkBlock b)) true b (2 * b) =
      some 2 := by
  have hmod : 2 * b % b = 0 := by
    rw [Nat.two_mul, Nat.add_mod_left, Nat.mod_self]
  have hdiv : 2 * b / b + 2 = 4 := by
    rw [Nat.mul_div_cancel _ (by omega : 0 < b)]
  rw [blockScan, hmod, hdiv, show (4 : Nat) = 3 + 1 from rfl,
    blockScanAux_empty_window _ _ _ _ _ _ _ _ (by omega) (by omega),
    Nat.zero_add, show (3 : Nat) = 2 + 1 from rfl,
    blockScanAux_notSearch_hit _ _ _ _ _ _ _ _ _ (by omega)
      (charSearch_first_block b hb) (by omega),
    show b + b = 2 * b from by omega, show (2 : Nat) = 1 + 1 from rfl,
    blockScanAux_notSearch_hit_last _ _ _ _ _ _ _ _ _ (by omega)
      (charSearch_second_block b hb) (by omega)]

/-- C5 counterexample: at the real window size of `SEARCHBLOCKSIZE / 2`
characters, a two-block file with one match in each block — so a file
containing at least one match and spanning more than one search block —
makes the not-search matcher return a found-count of 2, not 1: the break
at the first hit only leaves the current block, and the outer loop keeps
scanning later blocks. -/
theorem notSearch_found_count_cx :
    (charSearch 'a'
        (mkBlock (SEARCHBLOCKSIZE / 2) ++ mkBlock (SEARCHBLOCKSIZE / 2)) 0
        (mkBlock (SEARCHBLOCKSIZE / 2) ++
          mkBlock (SEARCHBLOCKSIZE / 2)).length).isSome = true ∧
      searchOnTextFileLoop
          (charSearch 'a'
            (mkBlock (SEARCHBLOCKSIZE / 2) ++ mkBlock (SEARCHBLOCKSIZE / 2)))
          true
          (mkBlock (SEARCHBLOCKSIZE / 2) ++ mkBlock (SEARCHBLOCKSIZE / 2)) =
        some 2 ∧
      (2 : Nat) ≠ 1 := by
  have hb : 1 ≤ SEARCHBLOCKSIZE / 2 := by norm_num [SEARCHBLOCKSIZE]
  have hlen : (mkBlock (SEARCHBLOCKSIZE / 2) ++
      mkBlock (SEARCHBLOCKSIZE / 2)).length = 2 * (SEARCHBLOCKSIZE / 2) := by
    rw [List.length_append, mkBlock_length _ hb]
    omega
  refine ⟨?_, ?_, by decide⟩
  · rw [hlen, charSearch_whole _ hb]
    rfl
  · rw [searchOnTextFileLoop, hlen, blockScan_two_blocks _ hb]

/-- C5 amended: in not-search mode the matcher stops scanning the block
at the first hit; for a file whose content fits within a single search
window, any hit makes it return a found-count of exactly 1, but for files
spanning several blocks the count equals the number of blocks in which a
hit was found and can exceed 1. -/
theorem blockScan_notSearch_single_window
    (search : Nat → Nat → Option (Nat × Nat)) (bs count f sec : Nat)
    (h1 : 0 < count) (h2 : count < bs)
    (h3 : search 0 count = some (f, sec)) :
    blockScan search true bs count = some 1 := by
  rw [blockScan, Nat.mod_eq_of_lt h2, Nat.div_eq_of_lt h2]
  rw [show 0 + 2 = 1 + 1 from rfl,
    blockScanAux_notSearch_hit_last _ _ _ _ _ _ _ _ _ h1 h3 (by omega)]

/-- Closed witness for the amended C5 statement on the one-character file
`a`. -/
theorem blockScan_notSearch_single_window_witness :
    ((0 : Nat) < 1 ∧ 1 < SEARCHBLOCKSIZE / 2 ∧
        charSearch 'a' ['a'] 0 1 = some (0, 1)) ∧
      blockScan (charSearch 'a' ['a']) true (SEARCHBLOCKSIZE / 2) 1 =
        some 1 :=
  ⟨⟨by decide, by norm_num [SEARCHBLOCKSIZE], by decide⟩,
    blockScan_notSearch_single_window (charSearch 'a' ['a'])
      (SEARCHBLOCKSIZE / 2) 1 0 1 (by decide)
      (by norm_num [SEARCHBLOCKSIZE]) (by decide)⟩

/-- The inner loop cannot exhaust the fuel `blockEnd - startIter + 1`
when the search function only reports matches lying inside its window. -/
theorem innerScan_total (search : Nat → Nat → Option (Nat × Nat))
    (hsound : ∀ lo hi f sec, search lo hi = some (f, sec) →
      lo ≤ f ∧ f ≤ sec ∧ sec ≤ hi) (ns : Bool) (hi : Nat) :
    ∀ fuel lo n, hi - lo + 1 ≤ fuel →
      ∃ r, innerScan search ns hi fuel lo n = some r := by
  intro fuel
  induction fuel with
  | zero => intro lo n h; omega
  | succ fuel ih =>
    intro lo n h
    rw [innerScan_step]
    by_cases hlt : lo < hi
    · rw [if_pos hlt]
      cases hsrch : search lo hi with
      | none =>
        exact ⟨(lo, n), rfl⟩
      | some p =>
        obtain ⟨f, sec⟩ := p
        obtain ⟨h1, h2, h3⟩ := hsound lo hi f sec hsrch
        show ∃ r, (if ns = true then some (lo, n + 1)
          else if sec = f then
            if sec = hi then some (sec, n + 1)
            else innerScan search ns hi fuel (sec + 1) (n + 1)
          else innerScan search ns hi fuel sec (n + 1)) = some r
        by_cases hns : ns = true
        · rw [if_pos hns]; exact ⟨_, rfl⟩
        · rw [if_neg hns]
          by_cases hzw : sec = f
          · rw [if_pos hzw]
            by_cases hend : sec = hi
            · rw [if_pos hend]; exact ⟨_, rfl⟩
            · rw [if_neg hend]
              apply ih
              omega
          · rw [if_neg hzw]
            apply ih
            omega
    · rw [if_neg hlt]
      exact ⟨(lo, n), rfl⟩

/-- One block advance lowers the ceiling of the remaining block count. -/
theorem ceil_div_step (bs x : Nat) (hbs : 0 < bs) (hx : 1 ≤ x) :
    (x - bs + bs - 1) / bs + 1 ≤ (x + bs - 1) / bs := by
  rcases le_or_lt x bs with hle | hgt
  · have h0 : x - bs = 0 := by omega
    rw [h0, Nat.zero_add]
    rw [Nat.div_eq_of_lt (by omega : bs - 1 < bs)]
    have h2 : bs ≤ x + bs - 1 := by omega
    have := (Nat.one_le_div_iff hbs).mpr h2
    omega
  · have h1 : x - bs + bs - 1 = x - 1 := by omega
    have h2 : x + bs - 1 = x - 1 + bs := by omega
    rw [h1, h2, Nat.add_div_right _ hbs]

/-- The outer block loop cannot exhaust its fuel either. -/
theorem blockScanAux_total (search : Nat → Nat → Option (Nat × Nat))
    (hsound : ∀ lo hi f sec, search lo hi = some (f, sec) →
      lo ≤ f ∧ f ≤ sec ∧ sec ≤ hi) (ns : Bool) (bs count : Nat)
    (hbs : 0 < bs) :
    ∀ fuel blockEnd startIter n,
      (count - blockEnd + bs - 1) / bs + 1 ≤ fuel →
      ∃ r, blockScanAux search ns bs count fuel startIter blockEnd n =
        some r := by
  intro fuel
  induction fuel with
  | zero => intro blockEnd startIter n h; exact (Nat.not_succ_le_zero _ h).elim
  | succ fuel ih =>
    intro blockEnd startIter n h
    rw [blockScanAux_step]
    obtain ⟨⟨si, nf⟩, hr⟩ := innerScan_total search hsound ns blockEnd
      (blockEnd - startIter + 1) startIter n (le_refl _)
    rw [hr]
    show ∃ r, (if blockEnd < count then
        blockScanAux search ns bs count fuel
          (if si < blockEnd then blockEnd else si) (blockEnd + bs) nf
      else some nf) = some r
    by_cases hc : blockEnd < count
    · rw [if_pos hc]
      apply ih
      have hstep := ceil_div_step bs (count - blockEnd) hbs (by omega)
      have heq : count - (blockEnd + bs) = count - blockEnd - bs := by omega
      rw [heq]
      omega
    · rw [if_neg hc]
      exact ⟨nf, rfl⟩

/-- C8: when the regex engine only reports matches inside the handed
window, (a) every zero-width hit that is not at the end of the current
block advances the scan position by exactly one character unit before the
next search, and (b) the whole per-file block loop always terminates — it
returns a result within its fuel for every block size and buffer
length. -/
theorem zeroWidth_advance_and_termination
    (search : Nat → Nat → Option (Nat × Nat))
    (hsound : ∀ lo hi f sec, search lo hi = some (f, sec) →
      lo ≤ f ∧ f ≤ sec ∧ sec ≤ hi) :
    (∀ fuel lo hi n f, lo < hi → search lo hi = some (f, f) → f ≠ hi →
        innerScan search false hi (fuel + 1) lo n =
          innerScan search false hi fuel (f + 1) (n + 1)) ∧
      ∀ ns bs count, 0 < bs →
        ∃ r, blockScan search ns bs count = some r := by
  constructor
  · intro fuel lo hi n f hlt hs hne
    rw [innerScan_step, if_pos hlt, hs]
    show (if (false : Bool) = true then some (lo, n + 1)
      else if f = f then
        if f = hi then some (f, n + 1)
        else innerScan search false hi fuel (f + 1) (n + 1)
      else innerScan search false hi fuel f (n + 1)) = _
    rw [if_neg (by simp), if_pos rfl, if_neg hne]
  · intro ns bs count hbs
    rw [blockScan]
    apply blockScanAux_total search hsound ns bs count hbs
    have h1 : count % bs + bs * (count / bs) = count := Nat.mod_add_div count bs
    have h2 : count - count % bs = bs * (count / bs) := by omega
    rw [h2]
    have h3 : (bs * (count / bs) + bs - 1) / bs = count / bs + (bs - 1) / bs := by
      have he : bs * (count / bs) + bs - 1 = bs * (count / bs) + (bs - 1) := by
        omega
      rw [he, Nat.mul_add_div hbs]
    rw [h3, Nat.div_eq_of_lt (by omega : bs - 1 < bs)]
    omega

/-- The probe search only reports matches inside its window. -/
theorem zwSearchProbe_sound :
    ∀ lo hi f sec, zwSearchProbe lo hi = some (f, sec) →
      lo ≤ f ∧ f ≤ sec ∧ sec ≤ hi := by
  intro lo hi f sec h
  unfold zwSearchProbe at h
  by_cases hlt : lo < hi
  · rw [if_pos hlt] at h
    cases h
    exact ⟨le_refl _, le_refl _, le_of_lt hlt⟩
  · rw [if_neg hlt] at h
    cases h

/-- Closed witness for C8: the everywhere-zero-width probe pattern on a
window of 5 units advances from 0 to 1, and the block loop over it
terminates. -/
theorem zeroWidth_advance_and_termination_witness :
    ((0 : Nat) < 5 ∧ zwSearchProbe 0 5 = some (0, 0) ∧ (0 : Nat) ≠ 5 ∧
        innerScan zwSearchProbe false 5 (3 + 1) 0 0 =
          innerScan zwSearchProbe false 5 3 (0 + 1) (0 + 1)) ∧
      ((0 : Nat) < 4 ∧ ∃ r, blockScan zwSearchProbe true 4 10 = some r) :=
  ⟨⟨by decide, by decide, by decide,
      (zeroWidth_advance_and_termination zwSearchProbe zwSearchProbe_sound).1
        3 0 5 0 0 (by decide) (by decide) (by decide)⟩,
    ⟨by decide,
      (zeroWidth_advance_and_termination zwSearchProbe zwSearchProbe_sound).2
        true 4 10 (by decide)⟩⟩

/-- C4 counterexample: backing up `C:\r\d\f.txt` under root `C:\r` with
backup-in-subfolder enabled produces `C:\r\grepWin_backup\d\f.txt`, not
`C:\r\grepWin_backup\d\f.txt.bak` as the claim states. -/
theorem backupFilePath_subfolder_cx :
    backupFilePath true ("C:\\r").toList ("C:\\r\\d\\f.txt").toList =
        ("C:\\r\\grepWin_backup\\d\\f.txt").toList ∧
      backupFilePath true ("C:\\r").toList ("C:\\r\\d\\f.txt").toList ≠
        ("C:\\r\\grepWin_backup\\d\\f.txt.bak").toList := by
  decide

/-- C4 amended: with backup-in-subfolder enabled the backup of
`<root>\<relative>` is written to `<root>\grepWin_backup\<relative>`
(without a `.bak` suffix); with it disabled the backup path is the
original path with `.bak` appended. -/
theorem backupFilePath_spec (root rel other : List Char) :
    backupFilePath true root (root ++ '\\' :: rel) =
        root ++ grepWinBackupSeg ++ rel ∧
      backupFilePath false root other = other ++ ['.', 'b', 'a', 'k'] := by
  constructor
  · by_cases h : '\\' ∈ rel
    · obtain ⟨A, B, hAB, hB⟩ := sep_split rel h
      have hfile : root ++ '\\' :: rel = (root ++ '\\' :: A) ++ '\\' :: B := by
        simp [hAB]
      have hfolder : root ++ grepWinBackupSeg ++ rel =
          (root ++ grepWinBackupSeg ++ A) ++ '\\' :: B := by
        simp [hAB]
      rw [backupFilePath]
      simp only [if_pos rfl, drop_root]
      rw [hfolder, upToLastSep_eq _ _ hB, hfile, afterLastSep_eq _ _ hB]
      simp [hAB]
    · have hfolder : root ++ grepWinBackupSeg ++ rel =
          (root ++ '\\' :: grepWinBackupDir) ++ '\\' :: rel := by
        simp [grepWinBackupSeg]
      rw [backupFilePath]
      simp only [if_pos rfl, drop_root]
      rw [hfolder, upToLastSep_eq _ _ h, afterLastSep_eq _ _ h]
      simp [grepWinBackupSeg]
  · rfl

end GrepWin
